import Mathlib

/-!
Verification model of the portfolio analytics code in
`StreamlitAppFinal/src/portfolio_analyzer.py`.

Conventions of the embedding:
* Python/numpy floats are modelled by real numbers; the IEEE special values
  `NaN` (what the spec calls the "undefined" sentinel) and `+inf` are made
  explicit through the `MVal` type below.
* pandas `Series.std()` uses `ddof = 1` (sample standard deviation), which is
  `NaN` for fewer than two observations; this is modelled by `sampleStd`
  returning `MVal.nan` in that case.
* `np.isclose(a, b)` with its default tolerances is `|a - b| <= 1e-8 + 1e-5*|b|`.
* Exact-valued parts of the program (weight validation, price-table cleaning)
  are modelled over `ℚ` so that they are executable; the metric formulas,
  which involve `sqrt` and real exponentiation, are modelled over `ℝ`.
-/

/-- Value of one metric slot: a real number, the `NaN` sentinel produced by
numpy/pandas for undefined results, or `+inf` (used only by the Sortino
branch for an empty downside set). -/
inductive MVal where
  | nan : MVal
  | pinf : MVal
  | val : ℝ → MVal

/-- `np.isclose a b` over `ℚ` with numpy's default tolerances
(`rtol = 1e-5`, `atol = 1e-8`). -/
def npIsClose (a b : ℚ) : Bool :=
  |a - b| ≤ 1 / 100000000 + (1 / 100000) * |b|

/-- `np.isclose a b` over `ℝ` with numpy's default tolerances. -/
def npIsCloseR (a b : ℝ) : Prop :=
  |a - b| ≤ 1 / 100000000 + (1 / 100000) * |b|

noncomputable instance (a b : ℝ) : Decidable (npIsCloseR a b) :=
  inferInstanceAs (Decidable (_ ≤ _))

/-- The validation failures emitted by the input-validation block of the
`submitted` branch (lines 400-444 of the source). -/
inductive ValidationError where
  | emptyTickers : ValidationError
  | emptyWeights : ValidationError
  | parseError : ValidationError
  | countMismatch : ValidationError
  | negativeWeight : ValidationError
  | zeroWeightSum : ValidationError
  deriving DecidableEq

/-- The allocation validation of the `submitted` block (lines 400-444).
Tickers arrive already split and stripped; each raw weight token is `some q`
when it parses as a number and `none` when `float(w)` would raise
`ValueError`.  The checks run in the source's order: empty tickers, empty
weights, numeric parse, count match, negativity, zero sum, and finally the
silent rescale to a 100 total when the sum is not `np.isclose` to 100. -/
def validateAllocation (tickers : List String) (raw : List (Option ℚ)) :
    Except ValidationError (List ℚ) :=
  if tickers = [] then .error .emptyTickers
  else if raw = [] then .error .emptyWeights
  else if raw.any (·.isNone) then .error .parseError
  else
    let ws := raw.map (fun o => o.getD 0)
    if tickers.length ≠ ws.length then .error .countMismatch
    else if ws.any (· < 0) then .error .negativeWeight
    else if npIsClose ws.sum 0 then .error .zeroWeightSum
    else if ¬ npIsClose ws.sum 100 then .ok (ws.map (fun w => w / ws.sum * 100))
    else .ok ws

/-- `(portfolio_returns_data * aligned_weights).sum(axis=1)` (lines 559-567):
each row of per-asset daily returns is dotted with the weights divided
by 100 (`aligned_weights` converts percentages to decimal fractions). -/
noncomputable def portfolioDailyReturns (rows : List (List ℝ)) (ws : List ℝ) : List ℝ :=
  rows.map (fun row => ((row.zip ws).map (fun p => p.1 * (p.2 / 100))).sum)

/-- `(1 + returns).prod() - 1` (line 218): cumulative simple return. -/
noncomputable def totalReturn (rs : List ℝ) : ℝ :=
  (rs.map (fun r => 1 + r)).prod - 1

/-- The `Total ... Return (%)` metric (lines 218-219 and 278-279). -/
noncomputable def totalReturnPct (rs : List ℝ) : MVal :=
  if rs = [] then .nan else .val (totalReturn rs * 100)

/-- Arithmetic mean of a list of reals. -/
noncomputable def listMean (xs : List ℝ) : ℝ := xs.sum / xs.length

/-- Sample variance with `ddof = 1`; only used under a length-two-or-more
guard, matching pandas `Series.std()**2`. -/
noncomputable def sampleVariance (xs : List ℝ) : ℝ :=
  ((xs.map (fun x => (x - listMean xs) ^ 2)).sum) / ((xs.length : ℝ) - 1)

/-- pandas `Series.std()` (default `ddof = 1`): `NaN` for fewer than two
observations, otherwise the square root of the sample variance. -/
noncomputable def sampleStd (xs : List ℝ) : MVal :=
  if xs.length ≤ 1 then .nan else .val (Real.sqrt (sampleVariance xs))

/-- `returns.std() * np.sqrt(252)` (lines 237 and 295): `NaN` propagates
through the multiplication. -/
noncomputable def annualizedVolatility (rs : List ℝ) : MVal :=
  match sampleStd rs with
  | .val s => .val (s * Real.sqrt 252)
  | _ => .nan

/-- The `Annualized ... Volatility (%)` metric (lines 238 and 296). -/
noncomputable def annualizedVolatilityPct (rs : List ℝ) : MVal :=
  match annualizedVolatility rs with
  | .val v => .val (v * 100)
  | _ => .nan

/-- The local variable `annualized_portfolio_return` of lines 222-235: for a
non-empty series it is the CAGR when `1 + total_return > 0` and is set to
`-1.0` otherwise ("Set for Sharpe calculation if needed", line 232); it is
`NaN` only when `years <= 0`, i.e. for the empty series. -/
noncomputable def annualizedReturnLocal (rs : List ℝ) : MVal :=
  if 0 < (rs.length : ℝ) / 252 then
    if 0 < 1 + totalReturn rs then
      .val (Real.rpow (1 + totalReturn rs) (252 / (rs.length : ℝ)) - 1)
    else .val (-1)
  else .nan

/-- The reported `Annualized ... Return (%)` metric (lines 222-235 and
282-293): the CAGR in percent when `1 + total_return > 0`, exactly `-100`
when `1 + total_return` is non-positive but `np.isclose` to `0`, and `NaN`
when the loss exceeds 100% or the series is empty. -/
noncomputable def annualizedReturnPct (rs : List ℝ) : MVal :=
  if 0 < (rs.length : ℝ) / 252 then
    if 0 < 1 + totalReturn rs then
      .val ((Real.rpow (1 + totalReturn rs) (252 / (rs.length : ℝ)) - 1) * 100)
    else if npIsCloseR (1 + totalReturn rs) 0 then .val (-100)
    else .nan
  else .nan

/-- The Sharpe ratio of lines 240-244 (and 298-302).  The source guard is
`volatility != 0 and not isnan(annualized_return)`; a `NaN` volatility passes
the `!= 0` test but then poisons the division, so the result is `NaN` in that
case as well.  The `annualized_return` used is the local variable (which is
`-1.0`, not `NaN`, after a loss exceeding 100%). -/
noncomputable def sharpeRatio (rs : List ℝ) (rf : ℝ) : MVal :=
  if rs = [] then .nan
  else
    match annualizedVolatility rs, annualizedReturnLocal rs with
    | _, .nan => .nan
    | .nan, .val _ => .nan
    | .val v, .val a => if v = 0 then .nan else .val ((a - rf) / v)
    | _, _ => .nan

/-- `portfolio_returns[portfolio_returns < 0]` (line 247). -/
noncomputable def downside (rs : List ℝ) : List ℝ :=
  rs.filter (fun r => decide (r < 0))

/-- The Sortino ratio of lines 246-255.  With an empty downside set the
source returns `+inf` when the (local) annualized return exceeds the
risk-free rate and `0.0` otherwise (a `NaN` comparison is `False`, giving
`0.0`).  With a non-empty downside set, the guard is
`downside_deviation != 0 and not isnan(annualized_return)`; a `NaN` downside
deviation (a single negative observation) passes the `!= 0` test and the
division then yields `NaN`. -/
noncomputable def sortinoRatio (rs : List ℝ) (rf : ℝ) : MVal :=
  if rs = [] then .nan
  else if downside rs = [] then
    match annualizedReturnLocal rs with
    | .val a => if rf < a then .pinf else .val 0
    | _ => .val 0
  else
    match sampleStd (downside rs), annualizedReturnLocal rs with
    | _, .nan => .nan
    | .nan, .val _ => .nan
    | .val s, .val a =>
        if s * Real.sqrt 252 = 0 then .nan
        else .val ((a - rf) / (s * Real.sqrt 252))
    | _, _ => .nan

/-- Running products `acc * Π (1 + r)` — pandas `(1 + rs).cumprod()` scaled
by an initial value `acc`. -/
noncomputable def cumWealthAux (acc : ℝ) : List ℝ → List ℝ
  | [] => []
  | r :: t => (acc * (1 + r)) :: cumWealthAux (acc * (1 + r)) t

/-- `(1 + portfolio_returns).cumprod()` (line 258). -/
noncomputable def cumulativeWealth (rs : List ℝ) : List ℝ := cumWealthAux 1 rs

/-- Helper for the running maximum: carries the maximum seen so far. -/
noncomputable def runMaxAux (m : ℝ) : List ℝ → List ℝ
  | [] => []
  | x :: t => (max m x) :: runMaxAux (max m x) t

/-- `cumulative_wealth.cummax()` (line 259). -/
noncomputable def runningMax (xs : List ℝ) : List ℝ :=
  match xs with
  | [] => []
  | x :: t => x :: runMaxAux x t

/-- `(cumulative_wealth - rolling_max) / rolling_max` (line 260).  pandas
would produce `NaN` entries only when a running maximum is `0`, which does
not happen for any input considered in the theorems below (it requires some
`1 + r = 0` at a running peak). -/
noncomputable def drawdowns (rs : List ℝ) : List ℝ :=
  List.zipWith (fun w m => (w - m) / m) (cumulativeWealth rs) (runningMax (cumulativeWealth rs))

/-- Minimum of a list of reals, `none` on the empty list (pandas `.min()`). -/
noncomputable def listMin : List ℝ → Option ℝ
  | [] => none
  | x :: t => some (t.foldl min x)

/-- The `Portfolio Max Drawdown (%)` metric (lines 257-262). -/
noncomputable def maxDrawdownPct (rs : List ℝ) : MVal :=
  match listMin (drawdowns rs) with
  | none => .nan
  | some m => .val (m * 100)

/-- A whole column is missing: `data[ticker].isnull().all()` (line 175). -/
def colAllNone (c : List (Option ℚ)) : Bool := c.all (·.isNone)

/-- The row mask of `dropna(axis=0, how='all')` (line 183): row `i` is kept
when at least one surviving column has a value there. -/
def keepMask (cols : List (List (Option ℚ))) (n : ℕ) : List Bool :=
  (List.range n).map (fun i => cols.any (fun c => (c.getD i none).isSome))

/-- Keep the entries of `xs` whose mask bit is `true`. -/
def maskFilter {α : Type} (mask : List Bool) (xs : List α) : List α :=
  ((mask.zip xs).filter (·.1)).map (·.2)

/-- Forward fill carrying the last seen value (`ffill`, line 186). -/
def ffillAux : Option ℚ → List (Option ℚ) → List (Option ℚ)
  | _, [] => []
  | _, some v :: t => some v :: ffillAux (some v) t
  | c, none :: t => c :: ffillAux c t

/-- `ffill()` on one column. -/
def ffill (xs : List (Option ℚ)) : List (Option ℚ) := ffillAux none xs

/-- `bfill()` on one column: forward fill of the reversed column. -/
def bfill (xs : List (Option ℚ)) : List (Option ℚ) := (ffillAux none xs.reverse).reverse

/-- The value the forward-fill carry holds after traversing a column. -/
def lastCarry (c : Option ℚ) (l : List (Option ℚ)) : Option ℚ :=
  l.foldl (fun acc x => match x with | some v => some v | none => acc) c

/-- The cleaning stage of `fetch_data` (lines 173-198): drop all-missing
columns, drop rows where every surviving column is missing, then forward-fill
and back-fill each column.  Returns the cleaned date index together with the
cleaned columns. -/
def cleanTable (dates : List ℤ) (cols : List (List (Option ℚ))) :
    List ℤ × List (List (Option ℚ)) :=
  let surv := cols.filter (fun c => !(colAllNone c))
  let mask := keepMask surv dates.length
  (maskFilter mask dates, surv.map (fun c => bfill (ffill (maskFilter mask c))))

/-- `benchmark_data_valid` (lines 532-544): the benchmark must be among the
fetched tickers and its column must not be entirely missing. -/
def benchmarkDataValid (fetched : List String) (bm : String) (col : List (Option ℚ)) : Bool :=
  if bm ∈ fetched then !(col.all (·.isNone)) else false

/-- `pct_change().dropna()`: daily simple returns, the first date dropped. -/
noncomputable def pctChange (prices : List ℝ) : List ℝ :=
  List.zipWith (fun prev cur => cur / prev - 1) prices prices.tail

/-- `benchmark_daily_returns` (lines 574-587): the empty series when the
benchmark data is not valid. -/
noncomputable def benchmarkDailyReturns (valid : Bool) (prices : List ℝ) : List ℝ :=
  if valid then pctChange prices else []

/-- The four benchmark entries of the metrics dict (lines 276-309): total
return, annualized return, annualized volatility (all in percent) and the
Sharpe ratio, all `NaN` for an empty benchmark series. -/
noncomputable def benchmarkMetrics (rs : List ℝ) (rf : ℝ) : MVal × MVal × MVal × MVal :=
  if rs = [] then (.nan, .nan, .nan, .nan)
  else (totalReturnPct rs, annualizedReturnPct rs, annualizedVolatilityPct rs, sharpeRatio rs rf)

/-- The six portfolio entries of the metrics dict (lines 216-273). -/
structure MetricSet where
  totalPct : MVal
  annPct : MVal
  volPct : MVal
  sharpe : MVal
  sortino : MVal
  maxDDPct : MVal

/-- The portfolio half of `calculate_metrics`. -/
noncomputable def portfolioMetricSet (rs : List ℝ) (rf : ℝ) : MetricSet :=
  if rs = [] then ⟨.nan, .nan, .nan, .nan, .nan, .nan⟩
  else ⟨totalReturnPct rs, annualizedReturnPct rs, annualizedVolatilityPct rs,
        sharpeRatio rs rf, sortinoRatio rs rf, maxDrawdownPct rs⟩

/-- `calculate_metrics(portfolio_returns, benchmark_returns, rf)` (lines
211-311): the portfolio block and the benchmark block are independent. -/
noncomputable def calculateMetrics (port bench : List ℝ) (rf : ℝ) :
    MetricSet × (MVal × MVal × MVal × MVal) :=
  (portfolioMetricSet port rf, benchmarkMetrics bench rf)

/-- `common_index = portfolio.index.intersection(benchmark.index)` (line
578): the portfolio dates that also carry a benchmark return. -/
def commonIndex (a b : List (ℤ × ℝ)) : List ℤ :=
  (a.map Prod.fst).filter (fun d => d ∈ b.map Prod.fst)

/-- Value of an indexed series at a date (`series.loc[d]`); dates are assumed
unique, as a pandas date index is.  The default is never reached when `d`
belongs to the series' index. -/
noncomputable def lookupD (s : List (ℤ × ℝ)) (d : ℤ) : ℝ :=
  ((s.find? (fun e => e.1 == d)).map Prod.snd).getD 0

/-- `series.loc[idx]`: reindex a series by a list of dates. -/
noncomputable def restrictLoc (s : List (ℤ × ℝ)) (idx : List ℤ) : List (ℤ × ℝ) :=
  idx.map (fun d => (d, lookupD s d))

/-- The alignment step of lines 574-587: when the benchmark data is valid
both series are restricted to the intersection of their date indices;
otherwise the portfolio series is untouched and the benchmark series is
empty. -/
noncomputable def alignedSeries (portRaw : List (ℤ × ℝ)) (benchValid : Bool)
    (benchRets : List (ℤ × ℝ)) : List (ℤ × ℝ) × List (ℤ × ℝ) :=
  if benchValid then
    (restrictLoc portRaw (commonIndex portRaw benchRets),
     restrictLoc benchRets (commonIndex portRaw benchRets))
  else (portRaw, [])

/-- `perf_df` (lines 590-612): rows of `(date, portfolio value, benchmark
value)`.  The synthetic first row sits at `index.min() - 1 day` and holds the
initial investment exactly; its benchmark entry is the initial investment
when `benchmark_data_valid` and `NaN` otherwise (line 604; the
`Benchmark_Value` column always exists, so the source condition reduces to
`benchmark_data_valid`).  The `sort_index` of the source is the identity here
because the synthetic date precedes every index date. -/
noncomputable def perfDf (inv : ℝ) (port bench : List (ℤ × ℝ)) (benchValid : Bool) :
    List (ℤ × ℝ × MVal) :=
  if port = [] then []
  else
    let dates := port.map Prod.fst
    let minD := dates.foldl min (dates.headD 0)
    let pvals := cumWealthAux inv (port.map Prod.snd)
    let bvals : List MVal :=
      if bench = [] then List.replicate port.length MVal.nan
      else (cumWealthAux inv (bench.map Prod.snd)).map MVal.val
    let startBench : MVal := if benchValid then MVal.val inv else MVal.nan
    (minD - 1, inv, startBench) ::
      (List.range port.length).map
        (fun k => (dates.getD k 0, pvals.getD k 0, bvals.getD k MVal.nan))

/-! ### Helper lemmas -/

theorem annualizedReturnLocal_eq (rs : List ℝ) (h : rs ≠ []) :
    ∃ a : ℝ, annualizedReturnLocal rs = .val a := by
  have hlen : 0 < (rs.length : ℝ) / 252 := by
    have : 0 < rs.length := List.length_pos.mpr h
    positivity
  by_cases hb : 0 < 1 + totalReturn rs
  · exact ⟨Real.rpow (1 + totalReturn rs) (252 / (rs.length : ℝ)) - 1,
      by simp [annualizedReturnLocal, hlen, hb]⟩
  · exact ⟨-1, by simp [annualizedReturnLocal, hlen, hb]⟩

theorem cumWealthAux_length (acc : ℝ) (rs : List ℝ) :
    (cumWealthAux acc rs).length = rs.length := by
  induction rs generalizing acc with
  | nil => rfl
  | cons r t ih => simp [cumWealthAux, ih]

theorem cumWealthAux_getD (rs : List ℝ) :
    ∀ (acc : ℝ) (k : ℕ), k < rs.length →
      (cumWealthAux acc rs).getD k 0 = acc * ((rs.take (k + 1)).map (fun r => 1 + r)).prod := by
  induction rs with
  | nil => intro acc k hk; simp at hk
  | cons r t ih =>
    intro acc k hk
    cases k with
    | zero => simp [cumWealthAux]
    | succ k =>
      have hk' : k < t.length := by simpa using hk
      simp only [cumWealthAux, List.getD_cons_succ, List.take_succ_cons, List.map_cons,
        List.prod_cons]
      rw [ih (acc * (1 + r)) k hk']
      ring

theorem cumWealthAux_pos (rs : List ℝ) :
    ∀ acc : ℝ, 0 < acc → (∀ r ∈ rs, 0 < 1 + r) →
      ∀ w ∈ cumWealthAux acc rs, 0 < w := by
  induction rs with
  | nil => intro acc _ _ w hw; simp [cumWealthAux] at hw
  | cons r t ih =>
    intro acc hacc hall w hw
    simp only [cumWealthAux, List.mem_cons] at hw
    have hr : 0 < 1 + r := hall r (by simp)
    rcases hw with rfl | hw
    · positivity
    · exact ih (acc * (1 + r)) (by positivity) (fun x hx => hall x (by simp [hx])) w hw

theorem foldl_min_le_init {α : Type} [LinearOrder α] (l : List α) (a : α) :
    l.foldl min a ≤ a := by
  induction l generalizing a with
  | nil => simp
  | cons x t ih =>
    calc (x :: t).foldl min a = t.foldl min (min a x) := rfl
    _ ≤ min a x := ih _
    _ ≤ a := min_le_left _ _

theorem foldl_min_le_mem {α : Type} [LinearOrder α] (l : List α) (a : α) :
    ∀ x ∈ l, l.foldl min a ≤ x := by
  induction l generalizing a with
  | nil => intro x hx; simp at hx
  | cons y t ih =>
    intro x hx
    rcases List.mem_cons.mp hx with rfl | hx
    · calc (x :: t).foldl min a = t.foldl min (min a x) := rfl
      _ ≤ min a x := foldl_min_le_init _ _
      _ ≤ x := min_le_right _ _
    · exact ih (min a y) x hx

theorem foldl_min_mem {α : Type} [LinearOrder α] (l : List α) (a : α) :
    l.foldl min a = a ∨ l.foldl min a ∈ l := by
  induction l generalizing a with
  | nil => simp
  | cons x t ih =>
    rcases ih (min a x) with h | h
    · rcases min_choice a x with hm | hm
      · left; rw [List.foldl_cons, h, hm]
      · right; rw [List.foldl_cons, h, hm]; simp
    · right; simp only [List.foldl_cons]; exact List.mem_cons_of_mem _ h

theorem foldl_min_ge {α : Type} [LinearOrder α] (l : List α) (a lo : α)
    (ha : lo ≤ a) (hl : ∀ y ∈ l, lo ≤ y) : lo ≤ l.foldl min a := by
  induction l generalizing a with
  | nil => simpa
  | cons x t ih =>
    exact ih (min a x) (le_min ha (hl x (by simp))) (fun y hy => hl y (by simp [hy]))

theorem runMaxAux_length (m : ℝ) (l : List ℝ) : (runMaxAux m l).length = l.length := by
  induction l generalizing m with
  | nil => rfl
  | cons x t ih => simp [runMaxAux, ih]

theorem runningMax_length (l : List ℝ) : (runningMax l).length = l.length := by
  cases l with
  | nil => rfl
  | cons x t => simp [runningMax, runMaxAux_length]

theorem drawdowns_length (rs : List ℝ) : (drawdowns rs).length = rs.length := by
  simp [drawdowns, cumWealthAux_length, runningMax_length, cumulativeWealth]

theorem dd_bounds_aux (l : List ℝ) :
    ∀ m : ℝ, 0 < m → (∀ x ∈ l, 0 < x) →
      ∀ d ∈ List.zipWith (fun w mm => (w - mm) / mm) l (runMaxAux m l), -1 < d ∧ d ≤ 0 := by
  induction l with
  | nil => intro m _ _ d hd; simp [runMaxAux] at hd
  | cons x t ih =>
    intro m hm hpos d hd
    have hx : 0 < x := hpos x (by simp)
    have hmax : 0 < max m x := lt_max_of_lt_right hx
    simp only [runMaxAux, List.zipWith_cons_cons, List.mem_cons] at hd
    rcases hd with rfl | hd
    · constructor
      · have h1 : (x - max m x) / max m x = x / max m x - 1 := by
          field_simp
        rw [h1]
        have h2 : 0 < x / max m x := div_pos hx hmax
        linarith
      · apply div_nonpos_of_nonpos_of_nonneg
        · simp [le_max_right m x]
        · exact le_of_lt hmax
    · exact ih (max m x) hmax (fun y hy => hpos y (by simp [hy])) d hd

theorem dd_zero_aux (l : List ℝ) :
    ∀ m : ℝ, (∀ x ∈ l, m ≤ x) → List.Pairwise (· ≤ ·) l →
      ∀ d ∈ List.zipWith (fun w mm => (w - mm) / mm) l (runMaxAux m l), d = 0 := by
  induction l with
  | nil => intro m _ _ d hd; simp [runMaxAux] at hd
  | cons x t ih =>
    intro m hle hpw d hd
    have hx : m ≤ x := hle x (by simp)
    have hmax : max m x = x := max_eq_right hx
    simp only [runMaxAux, List.zipWith_cons_cons, List.mem_cons, hmax] at hd
    rcases hd with rfl | hd
    · simp
    · exact ih x (fun y hy => (List.pairwise_cons.mp hpw).1 y hy) (List.pairwise_cons.mp hpw).2 d hd

theorem sampleVariance_nonneg (xs : List ℝ) (h : 2 ≤ xs.length) : 0 ≤ sampleVariance xs := by
  unfold sampleVariance
  apply div_nonneg
  · apply List.sum_nonneg
    intro x hx
    simp only [List.mem_map] at hx
    obtain ⟨y, _, rfl⟩ := hx
    positivity
  · have : (2 : ℝ) ≤ (xs.length : ℝ) := by exact_mod_cast h
    linarith

theorem downside_eq_nil_nonneg (rs : List ℝ) (h : downside rs = []) :
    ∀ r ∈ rs, 0 ≤ r := by
  intro r hr
  have := List.filter_eq_nil.mp h r hr
  simp only [decide_eq_true_eq] at this
  linarith [not_lt.mp this]

theorem one_le_list_prod (l : List ℝ) (h : ∀ x ∈ l, 1 ≤ x) : 1 ≤ l.prod := by
  induction l with
  | nil => simp
  | cons x t ih =>
    have hx : 1 ≤ x := h x (by simp)
    have ht : 1 ≤ t.prod := ih (fun y hy => h y (by simp [hy]))
    simp only [List.prod_cons]
    nlinarith

theorem map_div_mul_sum (ws : List ℚ) (s : ℚ) :
    (ws.map (fun w => w / s * 100)).sum = ws.sum / s * 100 := by
  induction ws with
  | nil => simp
  | cons w t ih => simp [ih]; ring

theorem ffillAux_length (l : List (Option ℚ)) : ∀ c, (ffillAux c l).length = l.length := by
  induction l with
  | nil => intro c; rfl
  | cons x t ih =>
    intro c
    cases x with
    | some v => simp [ffillAux, ih]
    | none => simp [ffillAux, ih]

theorem ffillAux_all_some (l : List (Option ℚ)) :
    ∀ c, c.isSome → ∀ y ∈ ffillAux c l, y.isSome := by
  induction l with
  | nil => intro c _ y hy; simp [ffillAux] at hy
  | cons x t ih =>
    intro c hc y hy
    cases x with
    | some v =>
      simp only [ffillAux, List.mem_cons] at hy
      rcases hy with rfl | hy
      · rfl
      · exact ih (some v) rfl y hy
    | none =>
      simp only [ffillAux, List.mem_cons] at hy
      rcases hy with rfl | hy
      · exact hc
      · exact ih c hc y hy

theorem ffillAux_all_some_of_all (l : List (Option ℚ)) :
    ∀ c, (∀ y ∈ l, y.isSome) → ∀ y ∈ ffillAux c l, y.isSome := by
  induction l with
  | nil => intro c _ y hy; simp [ffillAux] at hy
  | cons x t ih =>
    intro c hall y hy
    cases x with
    | some v =>
      simp only [ffillAux, List.mem_cons] at hy
      rcases hy with rfl | hy
      · rfl
      · exact ih (some v) (fun z hz => hall z (by simp [hz])) y hy
    | none =>
      have : (none : Option ℚ).isSome = true := hall none (by simp)
      simp at this

theorem ffillAux_append (l₁ l₂ : List (Option ℚ)) :
    ∀ c, ffillAux c (l₁ ++ l₂) = ffillAux c l₁ ++ ffillAux (lastCarry c l₁) l₂ := by
  induction l₁ with
  | nil => intro c; simp [ffillAux, lastCarry]
  | cons x t ih =>
    intro c
    cases x with
    | some v => simp [ffillAux, lastCarry, ih, List.foldl_cons]
    | none => simp [ffillAux, lastCarry, ih, List.foldl_cons]

theorem lastCarry_isSome (l : List (Option ℚ)) :
    ∀ c, (c.isSome = true ∨ ∃ y ∈ l, y.isSome = true) → (lastCarry c l).isSome := by
  induction l with
  | nil =>
    intro c hc
    rcases hc with hc | ⟨y, hy, _⟩
    · simpa [lastCarry]
    · simp at hy
  | cons x t ih =>
    intro c hc
    cases x with
    | some v => exact ih (some v) (Or.inl rfl)
    | none =>
      apply ih c
      rcases hc with hc | ⟨y, hy, hys⟩
      · exact Or.inl hc
      · rcases List.mem_cons.mp hy with rfl | hy
        · simp at hys
        · exact Or.inr ⟨y, hy, hys⟩

theorem ffillAux_exists_some (l : List (Option ℚ)) :
    ∀ c, (∃ y ∈ l, y.isSome = true) → ∃ y ∈ ffillAux c l, y.isSome = true := by
  induction l with
  | nil => intro c h; simp at h
  | cons x t ih =>
    intro c h
    cases x with
    | some v => exact ⟨some v, by simp [ffillAux], rfl⟩
    | none =>
      obtain ⟨y, hy, hys⟩ := h
      rcases List.mem_cons.mp hy with rfl | hy
      · simp at hys
      · obtain ⟨z, hz, hzs⟩ := ih c ⟨y, hy, hys⟩
        exact ⟨z, by simp [ffillAux, hz], hzs⟩

theorem bfill_cons_none (l : List (Option ℚ)) :
    bfill (none :: l) = lastCarry none l.reverse :: bfill l := by
  unfold bfill
  rw [List.reverse_cons, ffillAux_append]
  simp [ffillAux]

theorem bfill_all_some_of_all (l : List (Option ℚ)) (h : ∀ y ∈ l, y.isSome) :
    ∀ y ∈ bfill l, y.isSome := by
  intro y hy
  unfold bfill at hy
  rw [List.mem_reverse] at hy
  exact ffillAux_all_some_of_all l.reverse none (fun z hz => h z (List.mem_reverse.mp hz)) y hy

theorem bfill_ffill_all_some (xs : List (Option ℚ)) (h : ∃ y ∈ xs, y.isSome = true) :
    ∀ y ∈ bfill (ffill xs), y.isSome := by
  induction xs with
  | nil => simp at h
  | cons x t ih =>
    cases x with
    | some v =>
      apply bfill_all_some_of_all
      intro y hy
      unfold ffill at hy
      simp only [ffillAux, List.mem_cons] at hy
      rcases hy with rfl | hy
      · rfl
      · exact ffillAux_all_some t (some v) rfl y hy
    | none =>
      have hex : ∃ y ∈ t, y.isSome = true := by
        obtain ⟨y, hy, hys⟩ := h
        rcases List.mem_cons.mp hy with rfl | hy
        · simp at hys
        · exact ⟨y, hy, hys⟩
      have hstep : ffill (none :: t) = none :: ffill t := rfl
      rw [hstep, bfill_cons_none]
      intro y hy
      rcases List.mem_cons.mp hy with rfl | hy
      · exact lastCarry_isSome (ffill t).reverse none
          (Or.inr (by
            obtain ⟨z, hz, hzs⟩ := ffillAux_exists_some t none hex
            exact ⟨z, List.mem_reverse.mpr hz, hzs⟩))
      · exact ih hex y hy

theorem bfill_length (l : List (Option ℚ)) : (bfill l).length = l.length := by
  simp [bfill, ffillAux_length]

theorem ffill_length (l : List (Option ℚ)) : (ffill l).length = l.length := by
  simp [ffill, ffillAux_length]

theorem maskFilter_length {α : Type} (mask : List Bool) :
    ∀ (xs : List α), xs.length = mask.length →
      (maskFilter mask xs).length = mask.count true := by
  induction mask with
  | nil => intro xs h; simp [maskFilter]
  | cons b ms ih =>
    intro xs h
    cases xs with
    | nil => simp at h
    | cons x t =>
      have ht : t.length = ms.length := by simpa using h
      cases b with
      | true =>
        have hstep : maskFilter (true :: ms) (x :: t) = x :: maskFilter ms t := by
          simp [maskFilter]
        rw [hstep, List.length_cons, ih t ht, List.count_cons]
        simp
      | false =>
        have hstep : maskFilter (false :: ms) (x :: t) = maskFilter ms t := by
          simp [maskFilter]
        rw [hstep, ih t ht, List.count_cons]
        simp

theorem maskFilter_exists_some :
    ∀ (i : ℕ) (mask : List Bool) (c : List (Option ℚ)),
      mask.getD i false = true → (c.getD i none).isSome = true →
      ∃ y ∈ maskFilter mask c, y.isSome = true := by
  intro i
  induction i with
  | zero =>
    intro mask c hm hc
    cases mask with
    | nil => simp at hm
    | cons b ms =>
      cases c with
      | nil => simp at hc
      | cons x t =>
        simp only [List.getD_cons_zero] at hm hc
        subst hm
        exact ⟨x, by simp [maskFilter], hc⟩
  | succ i ih =>
    intro mask c hm hc
    cases mask with
    | nil => simp at hm
    | cons b ms =>
      cases c with
      | nil => simp at hc
      | cons x t =>
        simp only [List.getD_cons_succ] at hm hc
        obtain ⟨y, hy, hys⟩ := ih ms t hm hc
        cases b with
        | true => exact ⟨y, by simp [maskFilter] at hy ⊢; exact Or.inr hy, hys⟩
        | false => exact ⟨y, by simp [maskFilter] at hy ⊢; exact hy, hys⟩

theorem keepMask_getD (cols : List (List (Option ℚ))) (n i : ℕ) (h : i < n) :
    (keepMask cols n).getD i false = cols.any (fun c => (c.getD i none).isSome) := by
  have hlen : i < ((List.range n).map
      (fun i => cols.any (fun c => (c.getD i none).isSome))).length := by simpa using h
  rw [keepMask, List.getD_eq_getElem _ _ hlen, List.getElem_map, List.getElem_range]

theorem colAllNone_false (c : List (Option ℚ)) (h : colAllNone c = false) :
    ∃ i, i < c.length ∧ (c.getD i none).isSome = true := by
  unfold colAllNone at h
  rw [List.all_eq_false] at h
  obtain ⟨x, hx, hxn⟩ := h
  obtain ⟨i, hi, rfl⟩ := List.getElem_of_mem hx
  refine ⟨i, hi, ?_⟩
  rw [List.getD_eq_getElem _ _ hi, Option.isSome_iff_ne_none]
  simpa using hxn

/-! ### Claim theorems -/

/-- C6: for every raw fetch result accepted by the cleaner (all-missing
identifier columns dropped, dates where every surviving identifier is missing
dropped, then forward-fill and back-fill), the returned price table has no
missing value in any identifier column and all columns share the one cleaned
date index (every column has exactly one entry per cleaned date). -/
theorem cleanTable_no_missing (dates : List ℤ) (cols : List (List (Option ℚ)))
    (hwf : ∀ c ∈ cols, c.length = dates.length) :
    ∀ c ∈ (cleanTable dates cols).2,
      c.length = (cleanTable dates cols).1.length ∧ ∀ y ∈ c, y.isSome = true := by
  have h1 : (cleanTable dates cols).1 =
      maskFilter (keepMask (cols.filter (fun c => !(colAllNone c))) dates.length) dates := rfl
  have h2 : (cleanTable dates cols).2 =
      (cols.filter (fun c => !(colAllNone c))).map
        (fun c => bfill (ffill (maskFilter
          (keepMask (cols.filter (fun c => !(colAllNone c))) dates.length) c))) := rfl
  intro c hc
  rw [h2, List.mem_map] at hc
  obtain ⟨c₀, hc₀s, rfl⟩ := hc
  have hc₀cols : c₀ ∈ cols := List.mem_of_mem_filter hc₀s
  have hc₀surv : colAllNone c₀ = false := by
    have := List.of_mem_filter hc₀s
    simpa using this
  have hlen₀ : c₀.length = dates.length := hwf c₀ hc₀cols
  have hmasklen :
      (keepMask (cols.filter (fun c => !(colAllNone c))) dates.length).length
        = dates.length := by
    simp [keepMask]
  constructor
  · rw [h1, bfill_length, ffill_length,
      maskFilter_length _ c₀ (by rw [hlen₀, hmasklen]),
      maskFilter_length _ dates (by rw [hmasklen])]
  · obtain ⟨i, hi, hsome⟩ := colAllNone_false c₀ hc₀surv
    have hin : i < dates.length := hlen₀ ▸ hi
    have hmaskbit :
        (keepMask (cols.filter (fun c => !(colAllNone c))) dates.length).getD i false
          = true := by
      rw [keepMask_getD _ _ _ hin]
      exact List.any_eq_true.mpr ⟨c₀, hc₀s, hsome⟩
    exact bfill_ffill_all_some _ (maskFilter_exists_some i _ c₀ hmaskbit hsome)

theorem cleanTable_no_missing_witness :
    (([some (1 : ℚ), some 2] : List (Option ℚ)).length
        = (cleanTable [0, 1, 2] [[some 1, none, some 2], [none, none, none]]).1.length)
    ∧ (some (2 : ℚ)).isSome = true :=
  ⟨(cleanTable_no_missing [0, 1, 2] [[some 1, none, some 2], [none, none, none]]
      (by decide) [some 1, some 2] (by decide)).1,
   (cleanTable_no_missing [0, 1, 2] [[some 1, none, some 2], [none, none, none]]
      (by decide) [some 1, some 2] (by decide)).2 (some 2) (by decide)⟩

/-- C8: the allocation validator applies its rules in the source's fixed
order — non-empty lists and numeric parse, then identifier count equals
weight count, then no negative weight, then weight sum not approximately
zero, then silent rescaling to a sum of exactly 100 — and the error returned
is that of the first rule violated; in particular an input violating both
the count rule and the negativity rule yields the count-mismatch error. -/
theorem validateAllocation_order :
    (∀ (t : List String) (raw : List (Option ℚ)), t ≠ [] → raw ≠ [] →
        raw.any (·.isNone) = true → validateAllocation t raw = .error .parseError)
    ∧ (∀ (t : List String) (raw : List (Option ℚ)), t ≠ [] → raw ≠ [] →
        raw.all (·.isSome) = true → t.length ≠ raw.length →
        validateAllocation t raw = .error .countMismatch)
    ∧ validateAllocation ["AAPL", "MSFT"] [some (-5)] = .error .countMismatch
    ∧ (∀ (t : List String) (raw : List (Option ℚ)), t ≠ [] → raw ≠ [] →
        raw.all (·.isSome) = true → t.length = raw.length →
        (raw.map (fun o => o.getD 0)).any (· < 0) = true →
        validateAllocation t raw = .error .negativeWeight)
    ∧ (∀ (t : List String) (raw : List (Option ℚ)), t ≠ [] → raw ≠ [] →
        raw.all (·.isSome) = true → t.length = raw.length →
        (raw.map (fun o => o.getD 0)).any (· < 0) = false →
        npIsClose (raw.map (fun o => o.getD 0)).sum 0 = true →
        validateAllocation t raw = .error .zeroWeightSum)
    ∧ (∀ (t : List String) (raw : List (Option ℚ)), t ≠ [] → raw ≠ [] →
        raw.all (·.isSome) = true → t.length = raw.length →
        (raw.map (fun o => o.getD 0)).any (· < 0) = false →
        npIsClose (raw.map (fun o => o.getD 0)).sum 0 = false →
        npIsClose (raw.map (fun o => o.getD 0)).sum 100 = false →
        ∃ ws : List ℚ, validateAllocation t raw = .ok ws ∧ ws.sum = 100) := by
  have hnone : ∀ raw : List (Option ℚ), raw.all (·.isSome) = true →
      raw.any (·.isNone) = false := by
    intro raw hall
    rw [List.any_eq_false]
    intro o ho
    have hs := List.all_eq_true.mp hall o ho
    cases o with
    | none => simp at hs
    | some v => simp
  refine ⟨?_, ?_, ?_, ?_, ?_, ?_⟩
  · intro t raw ht hraw hany
    simp [validateAllocation, ht, hraw, hany]
  · intro t raw ht hraw hall hne
    have hlen : (raw.map (fun o => o.getD 0)).length = raw.length := List.length_map _ _
    simp [validateAllocation, ht, hraw, hnone raw hall, hlen, hne]
  · rfl
  · intro t raw ht hraw hall hlen hneg
    simp [validateAllocation, ht, hraw, hnone raw hall, List.length_map, hlen, hneg]
  · intro t raw ht hraw hall hlen hneg hzero
    simp [validateAllocation, ht, hraw, hnone raw hall, List.length_map, hlen, hneg, hzero]
  · intro t raw ht hraw hall hlen hneg hzero hhundred
    have hs : (raw.map (fun o => o.getD 0)).sum ≠ 0 := by
      intro h0
      rw [h0] at hzero
      simp [npIsClose] at hzero
    refine ⟨raw.map (fun o => o.getD 0 / (raw.map (fun o => o.getD 0)).sum * 100),
      ?_, ?_⟩
    · simp [validateAllocation, ht, hraw, hnone raw hall, List.length_map,
        hlen, hneg, hzero, hhundred, Function.comp]
    · have hsum := map_div_mul_sum (raw.map (fun o => o.getD 0))
        (raw.map (fun o => o.getD 0)).sum
      rw [List.map_map] at hsum
      rw [show (fun o : Option ℚ => o.getD 0 / (raw.map (fun o => o.getD 0)).sum * 100)
            = (fun w => w / (raw.map (fun o => o.getD 0)).sum * 100) ∘ (fun o => o.getD 0)
          from rfl, hsum, div_self hs, one_mul]

theorem validateAllocation_order_witness :
    validateAllocation ["A"] [some 1, some (-1)] = .error .countMismatch :=
  validateAllocation_order.2.1 ["A"] [some 1, some (-1)]
    (by decide) (by decide) (by decide) (by decide)

/-- C2: for identifiers AAPL and MSFT at weights 50 and 50 (accepted by the
validator unchanged) and daily returns `[0.01, -0.02]` for AAPL and
`[0.02, 0.00]` for MSFT (rows are per-date), the weighted portfolio daily
return series is `[0.015, -0.01]` and its total return is
`(1.015)*(0.99) - 1 = 0.00485`. -/
theorem scenario_two_asset_portfolio :
    validateAllocation ["AAPL", "MSFT"] [some 50, some 50] = .ok [50, 50]
    ∧ portfolioDailyReturns [[0.01, 0.02], [-0.02, 0]] [50, 50] = [0.015, -0.01]
    ∧ totalReturn (portfolioDailyReturns [[0.01, 0.02], [-0.02, 0]] [50, 50]) = 0.00485 := by
  have h2 : portfolioDailyReturns [[0.01, 0.02], [-0.02, 0]] [50, 50]
      = [0.015, -0.01] := by
    simp only [portfolioDailyReturns, List.map_cons, List.map_nil, List.zip_cons_cons,
      List.zip_nil_right, List.sum_cons, List.sum_nil]
    norm_num
  have hne1 : (["AAPL", "MSFT"] : List String) ≠ [] := by decide
  have hne2 : ([some 50, some 50] : List (Option ℚ)) ≠ [] := by decide
  refine ⟨by norm_num [validateAllocation, npIsClose, hne1, hne2], h2, ?_⟩
  rw [h2]
  simp only [totalReturn, List.map_cons, List.map_nil, List.prod_cons, List.prod_nil]
  norm_num

theorem length_div_pos (rs : List ℝ) (h : rs ≠ []) : 0 < (rs.length : ℝ) / 252 := by
  have : 0 < rs.length := List.length_pos.mpr h
  positivity

theorem annualizedVolatility_shape (rs : List ℝ) :
    annualizedVolatility rs = .nan ∨ ∃ v, annualizedVolatility rs = .val v := by
  by_cases hl : rs.length ≤ 1
  · left; simp [annualizedVolatility, sampleStd, hl]
  · right
    exact ⟨Real.sqrt (sampleVariance rs) * Real.sqrt 252,
      by simp [annualizedVolatility, sampleStd, hl]⟩

/-- C3: for a series of length `n` with total return `T`, the annualized
return metric is undefined when `years = n/252 <= 0`; it is
`(1+T)^(1/years) - 1` when `1+T > 0`; it is exactly `-100%` when `1+T` is
non-positive but approximately 0 (`np.isclose`); and it is the undefined
sentinel when `1+T < 0` beyond that tolerance (the source applies these
branches in this order). -/
theorem annualizedReturn_cases (rs : List ℝ) :
    ((rs.length : ℝ) / 252 ≤ 0 → annualizedReturnPct rs = .nan)
    ∧ (rs ≠ [] → 0 < 1 + totalReturn rs →
        annualizedReturnPct rs
          = .val ((Real.rpow (1 + totalReturn rs) (252 / (rs.length : ℝ)) - 1) * 100))
    ∧ (rs ≠ [] → 1 + totalReturn rs ≤ 0 → npIsCloseR (1 + totalReturn rs) 0 →
        annualizedReturnPct rs = .val (-100))
    ∧ (rs ≠ [] → 1 + totalReturn rs < 0 → ¬ npIsCloseR (1 + totalReturn rs) 0 →
        annualizedReturnPct rs = .nan) := by
  refine ⟨?_, ?_, ?_, ?_⟩
  · intro hy
    have hlen : rs.length = 0 := by
      by_contra hne
      have hpos : 0 < (rs.length : ℝ) / 252 := by
        have : 0 < rs.length := Nat.pos_of_ne_zero hne
        positivity
      linarith
    have hnil : rs = [] := List.length_eq_zero.mp hlen
    subst hnil
    simp [annualizedReturnPct]
  · intro h hb
    simp [annualizedReturnPct, length_div_pos rs h, hb]
  · intro h hb hcl
    simp [annualizedReturnPct, length_div_pos rs h, not_lt.mpr hb, hcl]
  · intro h hb hcl
    simp [annualizedReturnPct, length_div_pos rs h, not_lt.mpr (le_of_lt hb), hcl]

theorem annualizedReturn_cases_witness :
    annualizedReturnPct [(1 : ℝ)] = .val ((Real.rpow 2 252 - 1) * 100) := by
  have h := (annualizedReturn_cases [(1 : ℝ)]).2.1 (by simp)
    (by norm_num [totalReturn])
  rw [h]
  norm_num [totalReturn]

/-- C1 (as stated, refuted): the claim asserts that with `1 + total_return
< 0` the Sharpe ratio is undefined, but the source substitutes `-1.0` for the
annualized return in that case (line 232), so at `rs = [-2, 0]` the
annualized-return metric is undefined while the Sharpe ratio is a defined
value. -/
theorem sharpe_defined_despite_undef_annualized_return :
    1 + totalReturn [(-2 : ℝ), 0] < 0
    ∧ annualizedReturnPct [(-2 : ℝ), 0] = .nan
    ∧ sharpeRatio [(-2 : ℝ), 0] 0 ≠ .nan := by
  have htot : totalReturn [(-2 : ℝ), 0] = -2 := by
    simp [totalReturn]
  have hvar : sampleVariance [(-2 : ℝ), 0] = 2 := by
    simp [sampleVariance, listMean]
    norm_num
  have hstd : sampleStd [(-2 : ℝ), 0] = .val (Real.sqrt 2) := by
    simp [sampleStd, hvar]
  have hvol : annualizedVolatility [(-2 : ℝ), 0] = .val (Real.sqrt 2 * Real.sqrt 252) := by
    simp [annualizedVolatility, hstd]
  have hlocal : annualizedReturnLocal [(-2 : ℝ), 0] = .val (-1) := by
    simp [annualizedReturnLocal, htot]
  have hvne : Real.sqrt 2 * Real.sqrt 252 ≠ 0 := by positivity
  refine ⟨by rw [htot]; norm_num, ?_, ?_⟩
  · simp [annualizedReturnPct, htot, npIsCloseR]
    norm_num
  · simp [sharpeRatio, hvol, hlocal, hvne]

/-- C1 (amended): for every non-empty return series, the Sharpe ratio is the
undefined sentinel exactly when the annualized volatility is itself undefined
(fewer than two observations) or exactly zero; and when `1 + total_return <=
0` (loss of 100% or more) the Sharpe ratio is computed with `-100%`
substituted for the annualized return, hence defined whenever the volatility
is defined and nonzero. -/
theorem sharpe_undef_iff (rs : List ℝ) (rf : ℝ) (h : rs ≠ []) :
    (sharpeRatio rs rf = .nan ↔
      annualizedVolatility rs = .nan ∨ annualizedVolatility rs = .val 0)
    ∧ (∀ v : ℝ, 1 + totalReturn rs ≤ 0 → annualizedVolatility rs = .val v → v ≠ 0 →
        sharpeRatio rs rf = .val ((-1 - rf) / v)) := by
  obtain ⟨a, ha⟩ := annualizedReturnLocal_eq rs h
  constructor
  · rcases annualizedVolatility_shape rs with hvol | ⟨v, hvol⟩
    · have hs : sharpeRatio rs rf = .nan := by simp [sharpeRatio, h, hvol, ha]
      simp [hs, hvol]
    · by_cases hv : v = 0
      · have hs : sharpeRatio rs rf = .nan := by simp [sharpeRatio, h, hvol, ha, hv]
        simp [hs, hvol, hv]
      · have hs : sharpeRatio rs rf = .val ((a - rf) / v) := by
          simp [sharpeRatio, h, hvol, ha, hv]
        rw [hs]
        simp [hvol, hv]
  · intro v hle hvol hvne
    have hlocal : annualizedReturnLocal rs = .val (-1) := by
      simp [annualizedReturnLocal, length_div_pos rs h, not_lt.mpr hle]
    simp [sharpeRatio, h, hvol, hlocal, hvne]

theorem sharpe_undef_iff_witness :
    sharpeRatio [(0.1 : ℝ), 0.1] 0 = .nan := by
  have hvar : sampleVariance [(0.1 : ℝ), 0.1] = 0 := by
    simp [sampleVariance, listMean]
  have hvol : annualizedVolatility [(0.1 : ℝ), 0.1] = .val 0 := by
    simp [annualizedVolatility, sampleStd, hvar]
  exact ((sharpe_undef_iff [(0.1 : ℝ), 0.1] 0 (by simp)).1).mpr (Or.inr hvol)

/-- C10: for a return series of length exactly 1 the annualized volatility
metric and the Sharpe ratio are the undefined sentinel (pandas sample
standard deviation with `ddof = 1` is undefined for one observation), and for
every series whose downside set has exactly one element the Sortino ratio is
the undefined sentinel. -/
theorem single_observation_metrics_undef (r rf : ℝ) (rs : List ℝ) :
    annualizedVolatilityPct [r] = .nan
    ∧ sharpeRatio [r] rf = .nan
    ∧ (rs ≠ [] → (downside rs).length = 1 → sortinoRatio rs rf = .nan) := by
  have hstd : sampleStd [r] = .nan := by simp [sampleStd]
  have hvol : annualizedVolatility [r] = .nan := by simp [annualizedVolatility, hstd]
  obtain ⟨a, ha⟩ := annualizedReturnLocal_eq [r] (by simp)
  refine ⟨by simp [annualizedVolatilityPct, hvol], by simp [sharpeRatio, hvol, ha], ?_⟩
  intro hne hlen
  have hdne : downside rs ≠ [] := by
    intro h0
    rw [h0] at hlen
    simp at hlen
  have hstd' : sampleStd (downside rs) = .nan := by simp [sampleStd, hlen]
  obtain ⟨a', ha'⟩ := annualizedReturnLocal_eq rs hne
  simp [sortinoRatio, hne, hdne, hstd', ha']

theorem single_observation_metrics_undef_witness :
    sortinoRatio [(-0.5 : ℝ)] 0 = .nan ∧ sharpeRatio [(0.5 : ℝ)] 0 = .nan := by
  constructor
  · apply (single_observation_metrics_undef (-0.5) 0 [(-0.5 : ℝ)]).2.2 (by simp)
    have hd : downside [(-0.5 : ℝ)] = [(-0.5 : ℝ)] := by
      unfold downside
      rw [List.filter_cons]
      norm_num
    rw [hd]
    rfl
  · exact (single_observation_metrics_undef (0.5 : ℝ) 0 []).2.1

/-- C4 (as stated, refuted): the claim makes the Sortino ratio undefined when
the downside deviation is approximately 0, but the source guard at line 250
is the exact test `downside_deviation != 0`: at
`rs = [-0.01, -0.01 - 1e-10]` the downside deviation is nonzero yet within
`np.isclose` tolerance of 0, and the Sortino ratio is a defined value. -/
theorem sortino_defined_despite_close_zero_deviation :
    downside [(-0.01 : ℝ), -0.01 - 1e-10] ≠ []
    ∧ npIsCloseR (Real.sqrt (sampleVariance (downside [(-0.01 : ℝ), -0.01 - 1e-10]))
        * Real.sqrt 252) 0
    ∧ Real.sqrt (sampleVariance (downside [(-0.01 : ℝ), -0.01 - 1e-10]))
        * Real.sqrt 252 ≠ 0
    ∧ sortinoRatio [(-0.01 : ℝ), -0.01 - 1e-10] 0 ≠ .nan := by
  have hd : downside [(-0.01 : ℝ), -0.01 - 1e-10] = [(-0.01 : ℝ), -0.01 - 1e-10] := by
    unfold downside
    rw [List.filter_cons, List.filter_cons]
    norm_num
  have hvar : sampleVariance [(-0.01 : ℝ), -0.01 - 1e-10] = 5e-21 := by
    simp [sampleVariance, listMean]
    norm_num
  have hdevpos : 0 < Real.sqrt 5e-21 * Real.sqrt 252 := by positivity
  have hdevle : Real.sqrt 5e-21 * Real.sqrt 252 ≤ 1e-8 := by
    rw [← Real.sqrt_mul (by norm_num) 252,
      show (5e-21 : ℝ) * 252 = 1.26e-18 by norm_num]
    calc Real.sqrt 1.26e-18 ≤ Real.sqrt ((1e-8) ^ 2) :=
          Real.sqrt_le_sqrt (by norm_num)
    _ = 1e-8 := Real.sqrt_sq (by norm_num)
  have hstd : sampleStd [(-0.01 : ℝ), -0.01 - 1e-10] = .val (Real.sqrt 5e-21) := by
    simp [sampleStd, hvar]
  have htot : 0 < 1 + totalReturn [(-0.01 : ℝ), -0.01 - 1e-10] := by
    simp [totalReturn]
    norm_num
  have hlocal : annualizedReturnLocal [(-0.01 : ℝ), -0.01 - 1e-10]
      = .val (Real.rpow (1 + totalReturn [(-0.01 : ℝ), -0.01 - 1e-10])
          (252 / (([(-0.01 : ℝ), -0.01 - 1e-10] : List ℝ).length : ℝ)) - 1) := by
    simp [annualizedReturnLocal,
      length_div_pos [(-0.01 : ℝ), -0.01 - 1e-10] (by simp), htot]
  refine ⟨by rw [hd]; simp, ?_, ?_, ?_⟩
  · rw [hd, hvar]
    unfold npIsCloseR
    rw [sub_zero, abs_of_nonneg (le_of_lt hdevpos), abs_zero]
    have h8 : (1e-8 : ℝ) = 1 / 100000000 := by norm_num
    linarith
  · rw [hd, hvar]
    exact ne_of_gt hdevpos
  · have hdne : downside [(-0.01 : ℝ), -0.01 - 1e-10] ≠ [] := by
      rw [hd]
      simp
    have hstd' : sampleStd (downside [(-0.01 : ℝ), -0.01 - 1e-10])
        = .val (Real.sqrt 5e-21) := by
      rw [hd]
      exact hstd
    have hne : Real.sqrt 5e-21 * Real.sqrt 252 ≠ 0 := ne_of_gt hdevpos
    simp [sortinoRatio, hdne, hstd', hlocal, hne]

/-- C4 (amended): for every non-empty return series with an empty downside
set, the Sortino ratio is `+inf` exactly when the annualized return strictly
exceeds the annual risk-free rate and `0` otherwise; with a non-empty
downside set, the Sortino ratio is the undefined sentinel exactly when the
downside deviation is itself undefined (a single downside observation) or
exactly zero — not merely approximately zero — and otherwise equals the
excess annualized return divided by the annualized downside deviation, with
`-100%` substituted for the annualized return when `1 + total_return <= 0`. -/
theorem sortino_cases (rs : List ℝ) (rf : ℝ) (h : rs ≠ []) :
    (downside rs = [] →
      (rf < Real.rpow (1 + totalReturn rs) (252 / (rs.length : ℝ)) - 1 →
        sortinoRatio rs rf = .pinf)
      ∧ (Real.rpow (1 + totalReturn rs) (252 / (rs.length : ℝ)) - 1 ≤ rf →
        sortinoRatio rs rf = .val 0))
    ∧ ((downside rs).length = 1 → sortinoRatio rs rf = .nan)
    ∧ (2 ≤ (downside rs).length → sampleVariance (downside rs) = 0 →
        sortinoRatio rs rf = .nan)
    ∧ (2 ≤ (downside rs).length → sampleVariance (downside rs) ≠ 0 →
        0 < 1 + totalReturn rs →
        sortinoRatio rs rf
          = .val ((Real.rpow (1 + totalReturn rs) (252 / (rs.length : ℝ)) - 1 - rf)
              / (Real.sqrt (sampleVariance (downside rs)) * Real.sqrt 252)))
    ∧ (2 ≤ (downside rs).length → sampleVariance (downside rs) ≠ 0 →
        1 + totalReturn rs ≤ 0 →
        sortinoRatio rs rf
          = .val ((-1 - rf)
              / (Real.sqrt (sampleVariance (downside rs)) * Real.sqrt 252))) := by
  refine ⟨?_, ?_, ?_, ?_, ?_⟩
  · intro hd
    have hb : 0 < 1 + totalReturn rs := by
      have h1 : (1 : ℝ) ≤ (rs.map (fun r => 1 + r)).prod := by
        apply one_le_list_prod
        intro x hx
        obtain ⟨r, hr, rfl⟩ := List.mem_map.mp hx
        linarith [downside_eq_nil_nonneg rs hd r hr]
      unfold totalReturn
      linarith
    have hlocal : annualizedReturnLocal rs
        = .val (Real.rpow (1 + totalReturn rs) (252 / (rs.length : ℝ)) - 1) := by
      simp [annualizedReturnLocal, length_div_pos rs h, hb]
    constructor
    · intro hgt
      simp only [sortinoRatio, if_neg h, if_pos hd, hlocal]
      rw [if_pos hgt]
    · intro hle
      simp only [sortinoRatio, if_neg h, if_pos hd, hlocal]
      rw [if_neg (not_lt.mpr hle)]
  · intro hlen1
    have hdne : downside rs ≠ [] := by
      intro h0
      rw [h0] at hlen1
      simp at hlen1
    have hstd : sampleStd (downside rs) = .nan := by
      simp [sampleStd, hlen1]
    obtain ⟨a, ha⟩ := annualizedReturnLocal_eq rs h
    simp [sortinoRatio, h, hdne, hstd, ha]
  · intro hlen2 hvar0
    have hdne : downside rs ≠ [] := by
      intro h0
      rw [h0] at hlen2
      simp at hlen2
    have hstd : sampleStd (downside rs) = .val 0 := by
      have : ¬ (downside rs).length ≤ 1 := by omega
      simp [sampleStd, this, hvar0]
    obtain ⟨a, ha⟩ := annualizedReturnLocal_eq rs h
    simp [sortinoRatio, h, hdne, hstd, ha]
  · intro hlen2 hvar hb
    have hdne : downside rs ≠ [] := by
      intro h0
      rw [h0] at hlen2
      simp at hlen2
    have hstd : sampleStd (downside rs) = .val (Real.sqrt (sampleVariance (downside rs))) := by
      have : ¬ (downside rs).length ≤ 1 := by omega
      simp [sampleStd, this]
    have hlocal : annualizedReturnLocal rs
        = .val (Real.rpow (1 + totalReturn rs) (252 / (rs.length : ℝ)) - 1) := by
      simp [annualizedReturnLocal, length_div_pos rs h, hb]
    have hsq : 0 < Real.sqrt (sampleVariance (downside rs)) :=
      Real.sqrt_pos.mpr (lt_of_le_of_ne (sampleVariance_nonneg _ hlen2) (Ne.symm hvar))
    have hne : Real.sqrt (sampleVariance (downside rs)) * Real.sqrt 252 ≠ 0 := by
      positivity
    simp [sortinoRatio, h, hdne, hstd, hlocal, hne]
  · intro hlen2 hvar hble
    have hdne : downside rs ≠ [] := by
      intro h0
      rw [h0] at hlen2
      simp at hlen2
    have hstd : sampleStd (downside rs) = .val (Real.sqrt (sampleVariance (downside rs))) := by
      have : ¬ (downside rs).length ≤ 1 := by omega
      simp [sampleStd, this]
    have hlocal : annualizedReturnLocal rs = .val (-1) := by
      simp [annualizedReturnLocal, length_div_pos rs h, not_lt.mpr hble]
    have hsq : 0 < Real.sqrt (sampleVariance (downside rs)) :=
      Real.sqrt_pos.mpr (lt_of_le_of_ne (sampleVariance_nonneg _ hlen2) (Ne.symm hvar))
    have hne : Real.sqrt (sampleVariance (downside rs)) * Real.sqrt 252 ≠ 0 := by
      positivity
    simp [sortinoRatio, h, hdne, hstd, hlocal, hne]

theorem sortino_cases_witness :
    sortinoRatio [(0.1 : ℝ), 0.2] (-2) = .pinf := by
  have hd : downside [(0.1 : ℝ), 0.2] = [] := by
    unfold downside
    rw [List.filter_cons, List.filter_cons]
    norm_num
  apply ((sortino_cases [(0.1 : ℝ), 0.2] (-2) (by simp)).1 hd).1
  have hp : 0 < Real.rpow (1 + totalReturn [(0.1 : ℝ), 0.2])
      (252 / (([(0.1 : ℝ), 0.2] : List ℝ).length : ℝ)) := by
    apply Real.rpow_pos_of_pos
    have : totalReturn [(0.1 : ℝ), 0.2] = 0.32 := by
      simp [totalReturn]
      norm_num
    rw [this]
    norm_num
  linarith

/-- C5 (as stated, refuted): with a daily return below `-100%` the cumulative
wealth turns negative and the max-drawdown metric leaves `[-100%, 0%]`: at
`rs = [0, -2]` the source computes a max drawdown of `-200%`. -/
theorem maxDrawdown_out_of_range :
    maxDrawdownPct [(0 : ℝ), -2] = .val (-200)
    ∧ ¬ (-100 ≤ (-200 : ℝ) ∧ (-200 : ℝ) ≤ 0) := by
  constructor
  · have hcw : cumulativeWealth [(0 : ℝ), -2] = [1, -1] := by
      simp [cumulativeWealth, cumWealthAux]
      norm_num
    have hrm : runningMax [(1 : ℝ), -1] = [1, 1] := by
      simp [runningMax, runMaxAux]
    have hdd : drawdowns [(0 : ℝ), -2] = [0, -2] := by
      rw [drawdowns, hcw, hrm]
      norm_num
    rw [maxDrawdownPct, hdd]
    simp [listMin]
    norm_num
  · norm_num

/-- C5 (amended): for every non-empty return series all of whose returns
exceed `-100%` (cumulative wealth stays positive), the max drawdown lies in
`[-100%, 0%]`, and it equals `0` when the cumulative wealth never falls below
a prior peak (is monotone non-decreasing); without the `returns > -100%`
restriction the bound can fail, as the counterexample shows. -/
theorem maxDrawdown_range (rs : List ℝ) (h : rs ≠ []) (hpos : ∀ r ∈ rs, 0 < 1 + r) :
    (∃ m : ℝ, maxDrawdownPct rs = .val m ∧ -100 ≤ m ∧ m ≤ 0)
    ∧ (List.Pairwise (· ≤ ·) (cumulativeWealth rs) → maxDrawdownPct rs = .val 0) := by
  obtain ⟨r0, rest, rfl⟩ := List.exists_cons_of_ne_nil h
  have hw0 : 0 < 1 + r0 := hpos r0 (by simp)
  have hcw : cumulativeWealth (r0 :: rest) = (1 + r0) :: cumWealthAux (1 + r0) rest := by
    simp [cumulativeWealth, cumWealthAux]
  have hall : ∀ x ∈ cumWealthAux (1 + r0) rest, 0 < x :=
    cumWealthAux_pos rest (1 + r0) hw0 (fun r hr => hpos r (by simp [hr]))
  have hdd : drawdowns (r0 :: rest)
      = 0 :: List.zipWith (fun w m => (w - m) / m) (cumWealthAux (1 + r0) rest)
          (runMaxAux (1 + r0) (cumWealthAux (1 + r0) rest)) := by
    rw [drawdowns, hcw]
    simp [runningMax, List.zipWith_cons_cons]
  have hmdd : maxDrawdownPct (r0 :: rest)
      = .val ((List.zipWith (fun w m => (w - m) / m) (cumWealthAux (1 + r0) rest)
          (runMaxAux (1 + r0) (cumWealthAux (1 + r0) rest))).foldl min 0 * 100) := by
    rw [maxDrawdownPct, hdd]
    rfl
  constructor
  · have hb := dd_bounds_aux (cumWealthAux (1 + r0) rest) (1 + r0) hw0 hall
    have hlo : (-1 : ℝ) ≤ (List.zipWith (fun w m => (w - m) / m) (cumWealthAux (1 + r0) rest)
        (runMaxAux (1 + r0) (cumWealthAux (1 + r0) rest))).foldl min 0 :=
      foldl_min_ge _ 0 (-1) (by norm_num) (fun y hy => le_of_lt (hb y hy).1)
    have hhi := foldl_min_le_init (List.zipWith (fun w m => (w - m) / m)
        (cumWealthAux (1 + r0) rest)
        (runMaxAux (1 + r0) (cumWealthAux (1 + r0) rest))) (0 : ℝ)
    exact ⟨_, hmdd, by linarith, by linarith⟩
  · intro hpw
    rw [hcw] at hpw
    obtain ⟨hle, hpw'⟩ := List.pairwise_cons.mp hpw
    have hz := dd_zero_aux (cumWealthAux (1 + r0) rest) (1 + r0) hle hpw'
    have hlo : (0 : ℝ) ≤ (List.zipWith (fun w m => (w - m) / m) (cumWealthAux (1 + r0) rest)
        (runMaxAux (1 + r0) (cumWealthAux (1 + r0) rest))).foldl min 0 :=
      foldl_min_ge _ 0 0 le_rfl (fun y hy => le_of_eq (hz y hy).symm)
    have hhi := foldl_min_le_init (List.zipWith (fun w m => (w - m) / m)
        (cumWealthAux (1 + r0) rest)
        (runMaxAux (1 + r0) (cumWealthAux (1 + r0) rest))) (0 : ℝ)
    rw [hmdd, le_antisymm hhi hlo]
    norm_num

theorem maxDrawdown_range_witness :
    ∃ m : ℝ, maxDrawdownPct [(0.1 : ℝ), -0.05] = .val m ∧ -100 ≤ m ∧ m ≤ 0 :=
  (maxDrawdown_range [(0.1 : ℝ), -0.05] (by simp)
    (by intro r hr; rcases List.mem_cons.mp hr with rfl | hr
        · norm_num
        · rcases List.mem_cons.mp hr with rfl | hr
          · norm_num
          · simp at hr)).1

/-- C7: when the benchmark identifier's data is unavailable (not among the
fetched tickers or an all-missing column), `benchmark_data_valid` is false,
the benchmark return series is the empty series, every benchmark metric is
the undefined sentinel, and the portfolio half of the metric computation is
unaffected (the pipeline does not abort). -/
theorem benchmark_unavailable_graceful (fetched : List String) (bm : String)
    (col : List (Option ℚ)) (prices port bench : List ℝ) (rf : ℝ)
    (h : bm ∉ fetched ∨ col.all (·.isNone) = true) :
    benchmarkDataValid fetched bm col = false
    ∧ benchmarkDailyReturns false prices = []
    ∧ benchmarkMetrics [] rf = (.nan, .nan, .nan, .nan)
    ∧ (calculateMetrics port [] rf).1 = (calculateMetrics port bench rf).1 := by
  refine ⟨?_, rfl, rfl, rfl⟩
  rcases h with h | h
  · simp [benchmarkDataValid, h]
  · simp [benchmarkDataValid, h]

theorem benchmark_unavailable_graceful_witness :
    benchmarkDataValid ["AAPL"] "SPY" [none] = false
    ∧ benchmarkDailyReturns false [(100 : ℝ), 101] = []
    ∧ benchmarkMetrics [] (0 : ℝ) = (.nan, .nan, .nan, .nan)
    ∧ (calculateMetrics [(0.01 : ℝ)] [] 0).1 = (calculateMetrics [(0.01 : ℝ)] [(0.02 : ℝ)] 0).1 :=
  benchmark_unavailable_graceful ["AAPL"] "SPY" [none] [(100 : ℝ), 101] [(0.01 : ℝ)]
    [(0.02 : ℝ)] 0 (Or.inl (by decide))

theorem perfDf_cons (inv : ℝ) (port bench : List (ℤ × ℝ)) (benchValid : Bool)
    (hne : port ≠ []) :
    perfDf inv port bench benchValid =
      ((port.map Prod.fst).foldl min ((port.map Prod.fst).headD 0) - 1, inv,
        if benchValid then MVal.val inv else MVal.nan) ::
      (List.range port.length).map
        (fun k => ((port.map Prod.fst).getD k 0,
          (cumWealthAux inv (port.map Prod.snd)).getD k 0,
          (if bench = [] then List.replicate port.length MVal.nan
           else (cumWealthAux inv (bench.map Prod.snd)).map MVal.val).getD k MVal.nan)) := by
  simp only [perfDf, if_neg hne]

/-- C9: for every positive initial investment and non-empty aligned portfolio
return series, the growth curve's first row sits one calendar day before the
earliest return date and holds exactly the initial investment; every later
row `k+1` holds the initial investment times the product of `1 + r` over the
first `k+1` returns; and the synthetic first row's benchmark value is the
undefined sentinel exactly when the benchmark return series is empty (through
the alignment step, an invalid benchmark gives the empty series, and a valid
benchmark aligned with a non-empty portfolio series is non-empty). -/
theorem perfDf_growth_curve (inv : ℝ) (portRaw benchRets : List (ℤ × ℝ)) (benchValid : Bool)
    (port bench : List (ℤ × ℝ))
    (halign : alignedSeries portRaw benchValid benchRets = (port, bench))
    (hinv : 0 < inv) (hne : port ≠ []) :
    (∀ d ∈ port.map Prod.fst,
        ((perfDf inv port bench benchValid).headD (0, 0, .nan)).1 < d)
    ∧ ((perfDf inv port bench benchValid).headD (0, 0, .nan)).1 + 1 ∈ port.map Prod.fst
    ∧ ((perfDf inv port bench benchValid).headD (0, 0, .nan)).2.1 = inv
    ∧ (∀ k, k < port.length →
        ((perfDf inv port bench benchValid).getD (k + 1) (0, 0, .nan)).2.1
          = inv * (((port.map Prod.snd).take (k + 1)).map (fun r => 1 + r)).prod)
    ∧ (((perfDf inv port bench benchValid).headD (0, 0, .nan)).2.2 = .nan ↔ bench = []) := by
  have hcons := perfDf_cons inv port bench benchValid hne
  have hD : port.map Prod.fst ≠ [] := by
    intro h0
    exact hne (List.map_eq_nil.mp h0)
  obtain ⟨d0, Dt, hDeq⟩ := List.exists_cons_of_ne_nil hD
  have hminmem :
      (port.map Prod.fst).foldl min ((port.map Prod.fst).headD 0) ∈ port.map Prod.fst := by
    rcases foldl_min_mem (port.map Prod.fst) ((port.map Prod.fst).headD 0) with h1 | h1
    · rw [h1, hDeq]
      simp
    · exact h1
  have hminle := foldl_min_le_mem (port.map Prod.fst) ((port.map Prod.fst).headD 0)
  refine ⟨?_, ?_, ?_, ?_, ?_⟩
  · intro d hd
    rw [hcons]
    simp only [List.headD_cons]
    have := hminle d hd
    omega
  · rw [hcons]
    simp only [List.headD_cons]
    have heq : (port.map Prod.fst).foldl min ((port.map Prod.fst).headD 0) - 1 + 1
        = (port.map Prod.fst).foldl min ((port.map Prod.fst).headD 0) := by ring
    rw [heq]
    exact hminmem
  · rw [hcons]
    rfl
  · intro k hk
    rw [hcons]
    have hklen : k < ((List.range port.length).map
        (fun k => ((port.map Prod.fst).getD k 0,
          (cumWealthAux inv (port.map Prod.snd)).getD k 0,
          (if bench = [] then List.replicate port.length MVal.nan
           else (cumWealthAux inv (bench.map Prod.snd)).map MVal.val).getD k MVal.nan))).length := by
      simpa using hk
    rw [List.getD_cons_succ, List.getD_eq_getElem _ _ hklen, List.getElem_map,
      List.getElem_range]
    exact cumWealthAux_getD (port.map Prod.snd) inv k (by simpa using hk)
  · rw [hcons]
    simp only [List.headD_cons]
    cases benchValid with
    | false =>
      have hb : bench = [] := by
        have hpair : (portRaw, ([] : List (ℤ × ℝ))) = (port, bench) := by
          simpa [alignedSeries] using halign
        simp only [Prod.mk.injEq] at hpair
        exact hpair.2.symm
      simp [hb]
    | true =>
      have hpair : (restrictLoc portRaw (commonIndex portRaw benchRets),
          restrictLoc benchRets (commonIndex portRaw benchRets)) = (port, bench) := by
        simpa [alignedSeries] using halign
      simp only [Prod.mk.injEq] at hpair
      have hci : commonIndex portRaw benchRets ≠ [] := by
        intro h0
        apply hne
        rw [← hpair.1, h0]
        rfl
      have hbne : bench ≠ [] := by
        rw [← hpair.2]
        simp [restrictLoc, hci]
      simp [hbne]

theorem perfDf_growth_curve_witness :
    ((perfDf 2 [((5 : ℤ), (1 : ℝ))] [] false).headD (0, 0, .nan)).2.1 = 2
    ∧ (((perfDf 2 [((5 : ℤ), (1 : ℝ))] [] false).headD (0, 0, .nan)).2.2 = .nan
        ↔ ([] : List (ℤ × ℝ)) = []) := by
  have h := perfDf_growth_curve 2 [((5 : ℤ), (1 : ℝ))] [] false [((5 : ℤ), (1 : ℝ))] []
    rfl (by norm_num) (by simp)
  exact ⟨h.2.2.1, h.2.2.2.2⟩
